import Mathlib

/-
Verification of the LectureNotesAI document pipeline.

Shallow embedding of the pure core of the repository:
  * `src/backend/notion_client.py` — `chunked`, `normalize_inlines_spacing`,
    `inlines_to_rich_text`, `ast_to_notion_children`, `create_image_block`,
    the chunked append loop and the tenacity retry policy;
  * `src/backend/openai_client.py` — the shared retry policy `_RETRY`;
  * `src/pipeline/processor.py` — `_process_single_slide`, `_upload_slide_only`
    and the block-assembly part of `process_pdf`.

Python strings are modelled as `List Char`; JSON dict shapes are modelled as
structures carrying exactly the fields the code reads; network effects are
modelled by oracles (results per call) and explicit event traces.
-/

namespace LectureNotesAI

/-- Inline span as produced by the strict AST schema of
`openai_client.build_ast_schema`: a `kind` tag (the schema allows
`"text"` and `"math"`, the code compares the tag against those strings)
together with both payload fields, which are always present on the wire. -/
structure Inline where
  kind : String
  text : List Char
  latex : List Char
deriving DecidableEq

/-- The punctuation set of `normalize_inlines_spacing`
(`{",", ".", ";", ":", "!", "?", ")", "]", "}"}` in the source). -/
def punctuation : List Char := [',', '.', ';', ':', '!', '?', ')', ']', '}']

/-- The opening-bracket set of `normalize_inlines_spacing`
(`{"(", "[", "{"}` in the source). -/
def openers : List Char := ['(', '[', '{']

/-- Python `s.endswith(t)` for a tuple of one-character strings:
true iff `s` is non-empty and its last character is in `cs`. -/
def lastMem (s : List Char) (cs : List Char) : Bool :=
  match s.getLast? with
  | some c => cs.contains c
  | none => false

/-- Python `s.startswith(c)` / `s[0] in cs` for one-character tests:
true iff `s` is non-empty and its first character is in `cs`. -/
def headMem (s : List Char) (cs : List Char) : Bool :=
  match s.head? with
  | some c => cs.contains c
  | none => false

/-- Guard of the first spacing rule of `normalize_inlines_spacing`
(source line `if text and not text.endswith(" ") and not
text.endswith(tuple(openers))`, under `current["kind"] == "text" and
next_inline["kind"] == "math"`). -/
def rule1Fires (cur nxt : Inline) : Bool :=
  cur.kind == "text" && nxt.kind == "math" &&
    !cur.text.isEmpty && !lastMem cur.text [' '] && !lastMem cur.text openers

/-- Guard of the second spacing rule of `normalize_inlines_spacing`
(source line `if text and not text.startswith(" ") and text[0] not in
punctuation`, under `current["kind"] == "math" and next_inline["kind"] ==
"text"`). -/
def rule2Fires (cur nxt : Inline) : Bool :=
  cur.kind == "math" && nxt.kind == "text" &&
    !nxt.text.isEmpty && !headMem nxt.text [' '] && !headMem nxt.text punctuation

/-- One iteration body of the `for i in range(len(result) - 1)` loop of
`normalize_inlines_spacing`, acting on the pair `(result[i], result[i+1])`:
the first rule may append a space to the text of `result[i]`, the second
rule may prepend a space to the text of `result[i+1]`.  Both guards read
the values captured at the start of the iteration (the first rule changes
only `current["text"]`, which the second rule does not read). -/
def applyRules (cur nxt : Inline) : Inline × Inline :=
  (if rule1Fires cur nxt then { cur with text := cur.text ++ [' '] } else cur,
   if rule2Fires cur nxt then { nxt with text := ' ' :: nxt.text } else nxt)

/-- The loop body of `normalize_inlines_spacing` at index `i` on the working
list `res` (the Python code mutates `result[i]` and `result[i+1]` in place;
here the two cells are written back with `List.set`). -/
def loopStep (res : List Inline) (i : Nat) : List Inline :=
  match res[i]?, res[i + 1]? with
  | some cur, some nxt =>
      ((res.set i (applyRules cur nxt).1).set (i + 1) (applyRules cur nxt).2)
  | _, _ => res

/-- Model of `normalize_inlines_spacing` from `src/backend/notion_client.py`:
return sequences of length below two unchanged, otherwise run the
adjacent-pair loop for `i = 0 .. len - 2` over a copy of the list. -/
def normalize_inlines_spacing (inlines : List Inline) : List Inline :=
  if inlines.length < 2 then inlines
  else (List.range (inlines.length - 1)).foldl loopStep inlines

/-- Recursive form of the adjacent-pair loop: iteration `i` finally fixes
cell `i` (later iterations only touch cells `≥ i + 1`), so the loop is the
left-to-right pairwise recursion below.  Proved equal to
`normalize_inlines_spacing` in `normalize_eq_normalizeGo`. -/
def normalizeGo : List Inline → List Inline
  | cur :: nxt :: rest =>
      (applyRules cur nxt).1 :: normalizeGo ((applyRules cur nxt).2 :: rest)
  | xs => xs
termination_by l => l.length
decreasing_by simp

/-- Python `str.isspace()` character test, which is what `str.strip()`
strips -- the full Unicode whitespace set: the ASCII whitespace characters
U+0009 to U+000D and U+0020, the separator control characters U+001C to
U+001F, next line U+0085, no-break space U+00A0, ogham space mark U+1680,
the Unicode space separators U+2000 to U+200A, line separator U+2028,
paragraph separator U+2029, narrow no-break space U+202F, medium
mathematical space U+205F, and ideographic space U+3000. -/
def pyIsSpace (c : Char) : Bool :=
  (0x09 ≤ c.toNat && c.toNat ≤ 0x0d) || (0x1c ≤ c.toNat && c.toNat ≤ 0x20)
    || c.toNat == 0x85 || c.toNat == 0xa0 || c.toNat == 0x1680
    || (0x2000 ≤ c.toNat && c.toNat ≤ 0x200a)
    || c.toNat == 0x2028 || c.toNat == 0x2029 || c.toNat == 0x202f
    || c.toNat == 0x205f || c.toNat == 0x3000

/-- Python `s.strip()` on a char list: drop whitespace from both ends. -/
def pyStrip (s : List Char) : List Char :=
  ((s.dropWhile pyIsSpace).reverse.dropWhile pyIsSpace).reverse

/-- A Notion rich-text segment as built by `inlines_to_rich_text`:
either a text segment or an inline equation segment. -/
inductive RichText where
  | text (content : List Char)
  | equation (expression : List Char)
deriving DecidableEq

/-- A Notion block as built by `notion_client.py` / `processor.py`:
exactly the block shapes the code constructs. -/
inductive NotionBlock where
  | image (fileUploadId : List Char)
  | divider
  | paragraph (richText : List RichText)
  | heading1 (richText : List RichText)
  | heading3 (richText : List RichText)
  | equation (expression : List Char)
  | bulletedListItem (richText : List RichText)
  | numberedListItem (richText : List RichText)
deriving DecidableEq

/-- Model of `create_image_block` from `src/backend/notion_client.py`. -/
def create_image_block (fileUploadId : List Char) : NotionBlock :=
  NotionBlock.image fileUploadId

/-- Model of `inlines_to_rich_text` from `src/backend/notion_client.py`: one pass
over the inlines, appending a text segment for each non-empty `text`
inline and an equation segment for each `math` inline with non-empty
latex; anything else contributes nothing. -/
def inlines_to_rich_text (inlines : List Inline) : List RichText :=
  (inlines.map (fun inline =>
    if inline.kind == "text" then
      if inline.text.isEmpty then [] else [RichText.text inline.text]
    else if inline.kind == "math" then
      if inline.latex.isEmpty then [] else [RichText.equation inline.latex]
    else [])).flatten

/-- A block of the semantic AST, in the flat four-field wire shape of
`build_ast_schema` (`kind`, `inlines`, `latex`, `items` always present). -/
structure ASTBlock where
  kind : String
  inlines : List Inline
  latex : List Char
  items : List (List Inline)
deriving DecidableEq

/-- The semantic AST root: `{ title, blocks }`. -/
structure ASTNode where
  title : List Char
  blocks : List ASTBlock
deriving DecidableEq

/-- The per-block `match kind` dispatch of `ast_to_notion_children`:
headings and paragraphs from normalized inlines (omitted when the rich
text is empty), equations from stripped latex (omitted when empty),
one list item per entry of `items` for `bullets` / `numbered` (each
independently normalized and converted, empty entries omitted); any
other kind contributes nothing. -/
def compileBlock (block : ASTBlock) : List NotionBlock :=
  if block.kind == "heading" then
    let richText := inlines_to_rich_text (normalize_inlines_spacing block.inlines)
    if richText.isEmpty then [] else [NotionBlock.heading3 richText]
  else if block.kind == "paragraph" then
    let richText := inlines_to_rich_text (normalize_inlines_spacing block.inlines)
    if richText.isEmpty then [] else [NotionBlock.paragraph richText]
  else if block.kind == "math_block" then
    let latex := pyStrip block.latex
    if latex.isEmpty then [] else [NotionBlock.equation latex]
  else if block.kind == "bullets" then
    (block.items.map (fun itemInlines =>
      let richText := inlines_to_rich_text (normalize_inlines_spacing itemInlines)
      if richText.isEmpty then [] else [NotionBlock.bulletedListItem richText])).flatten
  else if block.kind == "numbered" then
    (block.items.map (fun itemInlines =>
      let richText := inlines_to_rich_text (normalize_inlines_spacing itemInlines)
      if richText.isEmpty then [] else [NotionBlock.numberedListItem richText])).flatten
  else []

/-- Model of `ast_to_notion_children` from `src/backend/notion_client.py`: the
children accumulated over `ast.get("blocks", [])` in document order. -/
def ast_to_notion_children (ast : ASTNode) : List NotionBlock :=
  (ast.blocks.map compileBlock).flatten

/-- Model of `chunked` from `src/backend/notion_client.py`, translating the slice
comprehension `[xs[i : i + n] for i in range(0, len(xs), n)]` directly:
`range(0, len, n)` is the `⌈len / n⌉`-element arithmetic progression
`0, n, 2n, …` and `xs[i : i + n]` is `(xs.drop i).take n`.  (For `n = 0`
the source raises `ValueError`; the model returns `[]` there and every
theorem assumes `0 < n`.) -/
def chunked {α : Type} (xs : List α) (n : Nat) : List (List α) :=
  (List.range' 0 ((xs.length + n - 1) / n) n).map (fun i => (xs.drop i).take n)

/-- Constant `RETRY_ATTEMPTS` from `src/config.py` (equal to `_RETRY_ATTEMPTS` in
`src/backend/notion_client.py`): `stop_after_attempt(3)`. -/
def RETRY_ATTEMPTS : Nat := 3

/-- Constant `NOTION_CHUNK_SIZE` / `_CHUNK_SIZE`: the default chunk size 50. -/
def CHUNK_SIZE : Nat := 50

/-- The tenacity retry combinator of the shared `_RETRY` policy
(`stop_after_attempt`, `retry_if_exception_type(Exception)`,
`reraise=True`), on the result level: `call a` is the outcome of attempt
number `a`; on any error the call is retried while fuel remains, and when
attempts are exhausted the final error is returned (re-raised) unchanged. -/
def retryResult {ε α : Type} (call : Nat → Except ε α) : Nat → Nat → Except ε α
  | attempt, fuel =>
      match call attempt, fuel with
      | Except.ok a, _ => Except.ok a
      | Except.error e, 0 => Except.error e
      | Except.error _, f + 1 => retryResult call (attempt + 1) f

/-- A call wrapped by `@retry(**_RETRY)`: up to `RETRY_ATTEMPTS` attempts,
starting at attempt number 1. -/
def withRetry {ε α : Type} (call : Nat → Except ε α) : Except ε α :=
  retryResult call 1 (RETRY_ATTEMPTS - 1)

/-- One issued append request of `append_children_to_notion_async`:
the batch sent in the `PATCH …/children` body and whether the request
succeeded (an HTTP status other than 200 raises). -/
structure AppendCall (α : Type) where
  batch : List α
  ok : Bool
deriving DecidableEq

/-- The `for batch in chunked(children, chunk_size)` loop body of
`append_children_to_notion_async`, driven by a failure oracle on the
chunk index: each batch is sent in order; a failing request raises,
aborting the loop (remaining chunks are never sent).  Returns the trace
of issued calls and whether the loop completed. -/
def appendLoop {α : Type} (fails : Nat → Bool) :
    List (List α) → Nat → List (AppendCall α) × Bool
  | [], _ => ([], true)
  | batch :: rest, idx =>
      if fails idx then ([⟨batch, false⟩], false)
      else
        ((⟨batch, true⟩ : AppendCall α) :: (appendLoop fails rest (idx + 1)).1,
         (appendLoop fails rest (idx + 1)).2)

/-- The trace-level tenacity combinator: run `call` for attempt numbers
`attempt, attempt + 1, …` while fuel remains, concatenating the traces of
the failed attempts; stop at the first success or when attempts are
exhausted. -/
def retryTraced {ev : Type} (call : Nat → List ev × Bool) :
    Nat → Nat → List ev × Bool
  | attempt, fuel =>
      if (call attempt).2 then call attempt
      else
        match fuel with
        | 0 => call attempt
        | f + 1 =>
            ((call attempt).1 ++ (retryTraced call (attempt + 1) f).1,
             (retryTraced call (attempt + 1) f).2)

/-- Model of `append_children_to_notion_async` from `src/backend/notion_client.py`:
the `@retry(**_RETRY)` decorator wraps the WHOLE chunk loop (the decorated
coroutine), so a retry re-runs the loop from the first chunk.  The failure
oracle `fails attempt idx` says whether the append request for chunk `idx`
fails during attempt number `attempt`. -/
def append_children_to_notion {α : Type} (children : List α) (chunkSize : Nat)
    (fails : Nat → Nat → Bool) : List (AppendCall α) × Bool :=
  retryTraced (fun attempt => appendLoop (fails attempt) (chunked children chunkSize) 0)
    1 (RETRY_ATTEMPTS - 1)

/-- A network call issued by the slide-processing part of the pipeline:
image uploads and reasoning-service calls (per-slide analysis, lecture
summary, exam questions). -/
inductive NetEvent where
  | uploadCall (page : Nat)
  | analyzeCall (page : Nat)
  | summaryCall
  | questionsCall
deriving DecidableEq

/-- The divider block built in `processor.py`. -/
def divider : NotionBlock := NotionBlock.divider

/-- The empty spacer paragraph built in `processor.py`. -/
def spacer : NotionBlock := NotionBlock.paragraph []

/-- Oracles standing for the external collaborators of one run: the
upload id returned for each page's image, the analysis AST returned for
each page, and the summary / questions ASTs. -/
structure Oracles where
  uploadId : Nat → List Char
  analysis : Nat → ASTNode
  summaryAst : ASTNode
  questionsAst : ASTNode

/-- Model of `_process_single_slide` from `src/pipeline/processor.py`: upload and
analysis (their results given by the oracles), then assemble
`[image_block] + explanation_children + [divider, spacer]`.  The trace
records the two network calls issued for the page. -/
def process_single_slide (o : Oracles) (pageNum : Nat) :
    (Nat × List NotionBlock) × List NetEvent :=
  ((pageNum,
    create_image_block (o.uploadId pageNum)
      :: ast_to_notion_children (o.analysis pageNum) ++ [divider, spacer]),
   [NetEvent.uploadCall pageNum, NetEvent.analyzeCall pageNum])

/-- Model of `_upload_slide_only` from `src/pipeline/processor.py`: only the image
upload is issued; the block group is image + divider + spacer. -/
def upload_slide_only (o : Oracles) (pageNum : Nat) :
    (Nat × List NotionBlock) × List NetEvent :=
  ((pageNum, [create_image_block (o.uploadId pageNum), divider, spacer]),
   [NetEvent.uploadCall pageNum])

/-- The `if page_num in ctx.excluded_pages` dispatch of the slide loop in
`process_pdf`. -/
def slideStep (excluded : Nat → Bool) (o : Oracles) (pageNum : Nat) :
    (Nat × List NotionBlock) × List NetEvent :=
  if excluded pageNum then upload_slide_only o pageNum
  else process_single_slide o pageNum

/-- The fixed summary heading block built in `process_pdf`. -/
def summary_title : NotionBlock :=
  NotionBlock.heading1 [RichText.text ("📝 Lecture Summary").toList]

/-- The fixed questions heading block built in `process_pdf`. -/
def questions_title : NotionBlock :=
  NotionBlock.heading1 [RichText.text ("❓ Practice Questions").toList]

/-- The block-assembly part of `process_pdf` from
`src/pipeline/processor.py`: visit pages `1 .. totalPages` in order
(excluded pages upload-only, others fully processed), concatenate the
resulting block groups in that order, then extend with the summary
heading and compiled summary AST, then the questions heading and compiled
questions AST.  Returns the block list handed to
`append_children_to_notion_async` together with the trace of
reasoning/upload calls issued. -/
def process_pdf (excluded : Nat → Bool) (o : Oracles) (totalPages : Nat) :
    List NotionBlock × List NetEvent :=
  let results := (List.range totalPages).map (fun i => slideStep excluded o (i + 1))
  (((results.map (fun r => r.1.2)).flatten
      ++ summary_title :: ast_to_notion_children o.summaryAst
      ++ questions_title :: ast_to_notion_children o.questionsAst),
   (results.map (fun r => r.2)).flatten ++ [NetEvent.summaryCall, NetEvent.questionsCall])

/-- Chunking the empty list yields no chunks. -/
theorem chunked_nil {α : Type} (n : Nat) : chunked ([] : List α) n = [] := by
  rcases n with _ | m
  · simp [chunked]
  · simp [chunked, Nat.div_eq_of_lt (Nat.lt_succ_self m)]

theorem range'_shift (n : Nat) : ∀ (k s t : Nat),
    List.range' (t + s) k n = (List.range' s k n).map (fun i => t + i) := by
  intro k
  induction k with
  | zero => intro s t; rfl
  | succ k ih =>
      intro s t
      rw [List.range'_succ, List.range'_succ, List.map_cons, ← ih (s + n) t,
        Nat.add_assoc]

/-- Unfolding lemma for `chunked`: with a positive chunk size, a non-empty
list splits as its first `n` elements followed by the chunks of the rest. -/
theorem chunked_cons {α : Type} {xs : List α} {n : Nat} (hn : 0 < n) (hxs : xs ≠ []) :
    chunked xs n = xs.take n :: chunked (xs.drop n) n := by
  have hL : 0 < xs.length := List.length_pos.mpr hxs
  have hcount : (xs.length + n - 1) / n = ((xs.length - n) + n - 1) / n + 1 := by
    rcases Nat.le_total xs.length n with h | h
    · have h1 : xs.length - n = 0 := Nat.sub_eq_zero_of_le h
      have h2 : (xs.length + n - 1) / n = 1 :=
        Nat.div_eq_of_lt_le (by omega) (by omega)
      have h3 : (0 + n - 1) / n = 0 := Nat.div_eq_of_lt (by omega)
      rw [h1, h2, h3]
    · have h1 : xs.length + n - 1 = ((xs.length - n) + n - 1) + n := by omega
      rw [h1, Nat.add_div_right _ hn]
  rw [chunked, chunked, List.length_drop, hcount, List.range'_succ, List.map_cons,
    List.drop_zero, Nat.zero_add]
  refine congrArg _ ?_
  have hsh := range'_shift n (((xs.length - n) + n - 1) / n) 0 n
  rw [Nat.add_zero] at hsh
  rw [hsh, List.map_map]
  refine List.map_congr_left ?_
  intro i _
  simp [List.drop_drop]

/-- With a positive chunk size the chunks concatenate back to the input. -/
theorem chunked_flatten {α : Type} {n : Nat} (hn : 0 < n) (xs : List α) :
    (chunked xs n).flatten = xs := by
  suffices H : ∀ (L : Nat) (ys : List α), ys.length ≤ L → (chunked ys n).flatten = ys from
    H xs.length xs Nat.le.refl
  intro L
  induction L with
  | zero =>
      intro ys hy
      have h : ys = [] := List.length_eq_zero.mp (Nat.le_zero.mp hy)
      simp [h, chunked_nil]
  | succ L ih =>
      intro ys hy
      rcases eq_or_ne ys [] with h | h
      · simp [h, chunked_nil]
      · have hpos : 0 < ys.length := List.length_pos.mpr h
        rw [chunked_cons hn h, List.flatten_cons,
          ih (ys.drop n) (by simp [List.length_drop]; omega),
          List.take_append_drop]

/-- With a positive chunk size every chunk is non-empty of length at most `n`. -/
theorem chunked_mem {α : Type} {n : Nat} (hn : 0 < n) (xs : List α) :
    ∀ c ∈ chunked xs n, c ≠ [] ∧ c.length ≤ n := by
  suffices H : ∀ (L : Nat) (ys : List α), ys.length ≤ L →
      ∀ c ∈ chunked ys n, c ≠ [] ∧ c.length ≤ n from
    H xs.length xs Nat.le.refl
  intro L
  induction L with
  | zero =>
      intro ys hy c hc
      have h : ys = [] := List.length_eq_zero.mp (Nat.le_zero.mp hy)
      rw [h, chunked_nil] at hc
      exact absurd hc (List.not_mem_nil c)
  | succ L ih =>
      intro ys hy c hc
      rcases eq_or_ne ys [] with h | h
      · rw [h, chunked_nil] at hc
        exact absurd hc (List.not_mem_nil c)
      · have hpos : 0 < ys.length := List.length_pos.mpr h
        rw [chunked_cons hn h] at hc
        rcases List.mem_cons.mp hc with h1 | h1
        · subst h1
          constructor
          · intro hne
            rcases List.take_eq_nil_iff.mp hne with h2 | h2
            · exact absurd h2 (Nat.pos_iff_ne_zero.mp hn)
            · exact h h2
          · rw [List.length_take]
            exact Nat.min_le_left n ys.length
        · exact ih (ys.drop n) (by simp [List.length_drop]; omega) c h1

/-- With a positive chunk size every chunk but possibly the last is full. -/
theorem chunked_full {α : Type} {n : Nat} (hn : 0 < n) (xs : List α) :
    ∀ i c, i + 1 < (chunked xs n).length → (chunked xs n)[i]? = some c →
      c.length = n := by
  suffices H : ∀ (L : Nat) (ys : List α), ys.length ≤ L →
      ∀ i c, i + 1 < (chunked ys n).length → (chunked ys n)[i]? = some c →
        c.length = n from
    H xs.length xs Nat.le.refl
  intro L
  induction L with
  | zero =>
      intro ys hy i c hi
      have h : ys = [] := List.length_eq_zero.mp (Nat.le_zero.mp hy)
      rw [h, chunked_nil] at hi
      simp at hi
  | succ L ih =>
      intro ys hy i c hi hget
      rcases eq_or_ne ys [] with h | h
      · rw [h, chunked_nil] at hi
        simp at hi
      · rw [chunked_cons hn h] at hi hget
        rcases i with _ | j
        · simp only [List.getElem?_cons_zero, Option.some.injEq] at hget
          have hrest : chunked (ys.drop n) n ≠ [] := by
            intro hz
            rw [List.length_cons, hz] at hi
            simp at hi
          have hdrop : ys.drop n ≠ [] := by
            intro hz
            rw [hz, chunked_nil] at hrest
            exact hrest rfl
          have hlen : n < ys.length := by
            have := List.length_pos.mpr hdrop
            rw [List.length_drop] at this
            omega
          rw [← hget, List.length_take]
          omega
        · rw [List.length_cons] at hi
          rw [List.getElem?_cons_succ] at hget
          exact ih (ys.drop n) (by have := List.length_pos.mpr h; simp [List.length_drop]; omega)
            j c (by omega) hget

/-- C10: for every list and every positive chunk size, `chunked` is an exact
partition: the chunks concatenate back to the input, every chunk is
non-empty of length at most `n`, every chunk except possibly the last is
exactly full, and the empty list yields zero chunks. -/
theorem chunked_exact_partition {α : Type} (xs : List α) (n : Nat) (hn : 0 < n) :
    (chunked xs n).flatten = xs ∧
    (∀ c ∈ chunked xs n, c ≠ [] ∧ c.length ≤ n) ∧
    (∀ i c, i + 1 < (chunked xs n).length → (chunked xs n)[i]? = some c →
      c.length = n) ∧
    chunked ([] : List α) n = [] :=
  ⟨chunked_flatten hn xs, chunked_mem hn xs, chunked_full hn xs, chunked_nil n⟩

/-- Witness for C10 at a concrete input. -/
theorem chunked_exact_partition_witness :
    (0 : Nat) < 3 ∧
    ((chunked (List.range 7) 3).flatten = List.range 7 ∧
     (∀ c ∈ chunked (List.range 7) 3, c ≠ [] ∧ c.length ≤ 3) ∧
     (∀ i c, i + 1 < (chunked (List.range 7) 3).length →
        (chunked (List.range 7) 3)[i]? = some c → c.length = 3) ∧
     chunked ([] : List Nat) 3 = []) :=
  ⟨by decide, chunked_exact_partition (List.range 7) 3 (by decide)⟩

/-- C6: the shared retry policy makes at most `3` attempts (the outcome
depends only on the outcomes of attempts 1, 2, 3), retries after an error
of any value, returns the first success, and after exhausting the attempts
re-raises the final error unchanged. -/
theorem retry_policy_properties {ε α : Type} (call : Nat → Except ε α) :
    (∀ call2 : Nat → Except ε α, (∀ i, 1 ≤ i → i ≤ 3 → call i = call2 i) →
        withRetry call = withRetry call2) ∧
    (∀ a, call 1 = Except.ok a → withRetry call = Except.ok a) ∧
    (∀ e a, call 1 = Except.error e → call 2 = Except.ok a →
        withRetry call = Except.ok a) ∧
    (∀ e1 e2 a, call 1 = Except.error e1 → call 2 = Except.error e2 →
        call 3 = Except.ok a → withRetry call = Except.ok a) ∧
    (∀ e1 e2 e3, call 1 = Except.error e1 → call 2 = Except.error e2 →
        call 3 = Except.error e3 → withRetry call = Except.error e3) := by
  refine ⟨?_, ?_, ?_, ?_, ?_⟩
  · intro call2 h
    have h1 := h 1 (by omega) (by omega)
    have h2 := h 2 (by omega) (by omega)
    have h3 := h 3 (by omega) (by omega)
    rcases c1 : call2 1 with e1 | a1 <;> rcases c2 : call2 2 with e2 | a2 <;>
      rcases c3 : call2 3 with e3 | a3 <;>
      simp [withRetry, RETRY_ATTEMPTS, retryResult, h1, h2, h3, c1, c2, c3]
  · intro a h1
    simp [withRetry, RETRY_ATTEMPTS, retryResult, h1]
  · intro e a h1 h2
    simp [withRetry, RETRY_ATTEMPTS, retryResult, h1, h2]
  · intro e1 e2 a h1 h2 h3
    simp [withRetry, RETRY_ATTEMPTS, retryResult, h1, h2, h3]
  · intro e1 e2 e3 h1 h2 h3
    simp [withRetry, RETRY_ATTEMPTS, retryResult, h1, h2, h3]

/-- Witness for C6: the third attempt succeeds after two errors. -/
theorem retry_policy_properties_witness :
    withRetry (fun i => if i == 3 then (Except.ok 7 : Except Nat Nat) else Except.error i)
      = Except.ok 7 :=
  (retry_policy_properties
      (fun i => if i == 3 then (Except.ok 7 : Except Nat Nat) else Except.error i)).2.2.2.1
    1 2 7 rfl rfl rfl

/-- A 120-element list splits at chunk size 50 into chunks of 50, 50, 20. -/
theorem chunked_120_50 {α : Type} (children : List α) (h : children.length = 120) :
    chunked children 50
      = [children.take 50, (children.drop 50).take 50, children.drop 100] := by
  have h0 : children ≠ [] := by
    intro hz
    rw [hz] at h
    simp at h
  have h50 : children.drop 50 ≠ [] := by
    intro hz
    have := congrArg List.length hz
    simp [List.length_drop, h] at this
  have h100 : (children.drop 50).drop 50 = children.drop 100 := by
    rw [List.drop_drop]
  have h100ne : children.drop 100 ≠ [] := by
    intro hz
    have := congrArg List.length hz
    simp [List.length_drop, h] at this
  have h150 : (children.drop 100).drop 50 = [] := by
    have := List.length_drop 50 (children.drop 100)
    rw [List.drop_drop]
    apply List.length_eq_zero.mp
    simp [List.length_drop, h]
  have htk : (children.drop 100).take 50 = children.drop 100 :=
    List.take_of_length_le (by simp [List.length_drop, h])
  rw [chunked_cons (by omega) h0, chunked_cons (by omega) h50, h100,
    chunked_cons (by omega) h100ne, htk, h150, chunked_nil]

set_option maxRecDepth 100000 in
/-- C1 counterexample: with the default chunk size and a permanently
failing 2nd append call, the retry policy re-runs the whole chunk loop, so
the first 50 blocks are successfully appended three times — not exactly
once as the claim states. -/
theorem append_chunking_counterexample :
    (((append_children_to_notion (List.range 120) 50 (fun _ i => i == 1)).1.filter
        AppendCall.ok).map AppendCall.batch)
      = [List.range 50, List.range 50, List.range 50] ∧
    ((append_children_to_notion (List.range 120) 50 (fun _ i => i == 1)).1.filter
        AppendCall.ok).length ≠ 1 := by
  constructor
  · decide
  · decide

/-- C1 amended: appending a 120-block list with chunk size 50 issues, per
attempt of the retry policy, append calls of 50, 50 and 20 blocks in that
order (one attempt and exactly 3 calls when every call succeeds, and the
calls concatenate back to the input); the retry policy wraps the whole
chunk loop rather than each call individually, so if the 2nd call fails
permanently each of the 3 attempts re-appends the first 50 blocks and then
fails on the second chunk: the first 50 blocks are appended once per
attempt (3 times in total) and no call for the 3rd chunk is ever issued. -/
theorem append_chunking_retry_amended {α : Type} (children : List α)
    (h : children.length = 120) :
    ((append_children_to_notion children 50 (fun _ _ => false)).1
        = [⟨children.take 50, true⟩, ⟨(children.drop 50).take 50, true⟩,
           ⟨children.drop 100, true⟩] ∧
     (append_children_to_notion children 50 (fun _ _ => false)).2 = true ∧
     ((append_children_to_notion children 50 (fun _ _ => false)).1.map
        (fun c => c.batch.length)) = [50, 50, 20] ∧
     ((append_children_to_notion children 50 (fun _ _ => false)).1.map
        AppendCall.batch).flatten = children) ∧
    ((append_children_to_notion children 50 (fun _ i => i == 1)).1
        = [⟨children.take 50, true⟩, ⟨(children.drop 50).take 50, false⟩,
           ⟨children.take 50, true⟩, ⟨(children.drop 50).take 50, false⟩,
           ⟨children.take 50, true⟩, ⟨(children.drop 50).take 50, false⟩] ∧
     (append_children_to_notion children 50 (fun _ i => i == 1)).2 = false ∧
     (((append_children_to_notion children 50 (fun _ i => i == 1)).1.filter
        AppendCall.ok).map AppendCall.batch)
        = [children.take 50, children.take 50, children.take 50]) := by
  have hch := chunked_120_50 children h
  have hl0 : (children.take 50).length = 50 := by
    simp [List.length_take, h]
  have hl1 : ((children.drop 50).take 50).length = 50 := by
    simp [List.length_take, List.length_drop, h]
  have hl2 : (children.drop 100).length = 20 := by
    simp [List.length_drop, h]
  have hflat : children.take 50 ++ ((children.drop 50).take 50 ++ children.drop 100)
      = children := by
    have h1 : (children.drop 50).take 50 ++ children.drop 100 = children.drop 50 := by
      have h2 : (children.drop 50).drop 50 = children.drop 100 := by
        rw [List.drop_drop]
      rw [← h2, List.take_append_drop]
    rw [h1, List.take_append_drop]
  refine ⟨⟨?_, ?_, ?_, ?_⟩, ⟨?_, ?_, ?_⟩⟩ <;>
    simp [append_children_to_notion, hch, RETRY_ATTEMPTS, retryTraced, appendLoop,
      hl0, hl1, hl2, hflat]

/-- Witness for the amended C1 at a concrete 120-block list. -/
theorem append_chunking_retry_amended_witness :
    (List.range 120).length = 120 ∧
    ((append_children_to_notion (List.range 120) 50 (fun _ _ => false)).2 = true ∧
     ((append_children_to_notion (List.range 120) 50 (fun _ _ => false)).1.map
        (fun c => c.batch.length)) = [50, 50, 20]) :=
  ⟨rfl, ((append_chunking_retry_amended (List.range 120) rfl).1.2.1),
    ((append_chunking_retry_amended (List.range 120) rfl).1.2.2.1)⟩

/-- The slide result of `slideStep` always carries its own page number. -/
theorem slideStep_fst (excluded : Nat → Bool) (o : Oracles) (p : Nat) :
    (slideStep excluded o p).1.1 = p := by
  by_cases h : excluded p <;>
    simp [slideStep, upload_slide_only, process_single_slide, h]

/-- C3: the block list handed to the Delivery Layer is exactly the slide
block-groups concatenated in ascending page-number order (pages
`1 .. totalPages`), then the fixed summary heading followed by the
compiled summary blocks, then the fixed questions heading followed by the
compiled question blocks. -/
theorem delivering_block_order (excluded : Nat → Bool) (o : Oracles) (totalPages : Nat) :
    (process_pdf excluded o totalPages).1 =
      ((List.range totalPages).map (fun i => (slideStep excluded o (i + 1)).1.2)).flatten
        ++ summary_title :: ast_to_notion_children o.summaryAst
        ++ questions_title :: ast_to_notion_children o.questionsAst ∧
    (List.range totalPages).map (fun i => (slideStep excluded o (i + 1)).1.1)
        = (List.range totalPages).map (fun i => i + 1) ∧
    List.Chain' (fun p q => p < q)
      ((List.range totalPages).map (fun i => (slideStep excluded o (i + 1)).1.1)) := by
  have hfst : (List.range totalPages).map (fun i => (slideStep excluded o (i + 1)).1.1)
      = (List.range totalPages).map (fun i => i + 1) :=
    List.map_congr_left (fun i _ => slideStep_fst excluded o (i + 1))
  refine ⟨?_, hfst, ?_⟩
  · simp only [process_pdf, List.map_map]
    rfl
  · rw [hfst]
    rcases totalPages with _ | m
    · simp
    · rw [List.chain'_map]
      exact (List.chain'_range_succ (fun a b => a + 1 < b + 1) m).mpr
        (fun k _ => by omega)

/-- C4: a page in the excluded set gets the upload-only block group —
exactly an image block, a divider and a spacer, with no explanation
blocks — and no reasoning-service analysis call for that page is ever
issued during the run. -/
theorem excluded_page_upload_only (excluded : Nat → Bool) (o : Oracles)
    (p totalPages : Nat) (hp : excluded p = true) :
    (slideStep excluded o p).1.2
        = [create_image_block (o.uploadId p), divider, spacer] ∧
    NetEvent.analyzeCall p ∉ (process_pdf excluded o totalPages).2 := by
  constructor
  · simp [slideStep, hp, upload_slide_only]
  · intro hmem
    simp only [process_pdf] at hmem
    rcases List.mem_append.mp hmem with hm | hm
    · rcases List.mem_flatten.mp hm with ⟨l, hlmem, hml⟩
      rcases List.mem_map.mp hlmem with ⟨r, hrmem, hrl⟩
      rcases List.mem_map.mp hrmem with ⟨i, hirange, hri⟩
      subst hri
      subst hrl
      by_cases he : excluded (i + 1)
      · simp [slideStep, he, upload_slide_only] at hml
      · simp [slideStep, he, process_single_slide] at hml
        rw [hml] at hp
        exact he hp
    · simp at hm

/-- Witness for C4: a 3-page run with page 2 excluded. -/
theorem excluded_page_upload_only_witness :
    (slideStep (fun p => p == 2)
        ⟨fun _ => [], fun _ => ⟨[], []⟩, ⟨[], []⟩, ⟨[], []⟩⟩ 2).1.2
      = [create_image_block [], divider, spacer] ∧
    NetEvent.analyzeCall 2
      ∉ (process_pdf (fun p => p == 2)
          ⟨fun _ => [], fun _ => ⟨[], []⟩, ⟨[], []⟩, ⟨[], []⟩⟩ 3).2 :=
  excluded_page_upload_only (fun p => p == 2)
    ⟨fun _ => [], fun _ => ⟨[], []⟩, ⟨[], []⟩, ⟨[], []⟩⟩ 2 3 rfl

/-- C5: the compiler omits heading/paragraph blocks whose converted rich
text is empty and math blocks whose latex strips to empty; a paragraph
whose single inline is an empty text compiles to zero blocks; a bullets
block with two non-empty items compiles to exactly those two bulleted
items in order; a non-empty math block emits one equation block carrying
the trimmed latex. -/
theorem compiler_omits_empty :
    (∀ b : ASTBlock, b.kind = "heading" ∨ b.kind = "paragraph" →
        inlines_to_rich_text (normalize_inlines_spacing b.inlines) = [] →
        compileBlock b = []) ∧
    (∀ b : ASTBlock, b.kind = "math_block" → pyStrip b.latex = [] →
        compileBlock b = []) ∧
    (∀ b : ASTBlock, b.kind = "math_block" → pyStrip b.latex ≠ [] →
        compileBlock b = [NotionBlock.equation (pyStrip b.latex)]) ∧
    (∀ title : List Char,
        ast_to_notion_children ⟨title, [⟨"paragraph", [⟨"text", [], []⟩], [], []⟩]⟩ = []) ∧
    (∀ (title : List Char) (a1 a2 : List Inline),
        inlines_to_rich_text (normalize_inlines_spacing a1) ≠ [] →
        inlines_to_rich_text (normalize_inlines_spacing a2) ≠ [] →
        ast_to_notion_children ⟨title, [⟨"bullets", [], [], [a1, a2]⟩]⟩
          = [NotionBlock.bulletedListItem
               (inlines_to_rich_text (normalize_inlines_spacing a1)),
             NotionBlock.bulletedListItem
               (inlines_to_rich_text (normalize_inlines_spacing a2))]) := by
  refine ⟨?_, ?_, ?_, ?_, ?_⟩
  · intro b hk h
    rcases hk with hk | hk <;> simp [compileBlock, hk, h]
  · intro b hk h
    simp [compileBlock, hk, h]
  · intro b hk h
    simp [compileBlock, hk, List.isEmpty_iff, h]
  · intro title
    rfl
  · intro title a1 a2 h1 h2
    simp [ast_to_notion_children, compileBlock, List.isEmpty_iff, h1, h2]

/-- Witness for C5 at concrete blocks, including latexes made of or
surrounded by Unicode whitespace (no-break space U+00A0). -/
theorem compiler_omits_empty_witness :
    compileBlock ⟨"math_block", [], [' ', '\t'], []⟩ = [] ∧
    compileBlock ⟨"math_block", [], ['\u00A0'], []⟩ = [] ∧
    compileBlock ⟨"math_block", [], ['\u00A0', 'x', '\u3000'], []⟩
      = [NotionBlock.equation ['x']] ∧
    compileBlock ⟨"math_block", [], ['x', ' '], []⟩ = [NotionBlock.equation ['x']] ∧
    ast_to_notion_children ⟨[], [⟨"paragraph", [⟨"text", [], []⟩], [], []⟩]⟩ = [] ∧
    ast_to_notion_children
        ⟨[], [⟨"bullets", [], [], [[⟨"text", ['a'], []⟩], [⟨"text", ['b'], []⟩]]⟩]⟩
      = [NotionBlock.bulletedListItem [RichText.text ['a']],
         NotionBlock.bulletedListItem [RichText.text ['b']]] :=
  ⟨compiler_omits_empty.2.1 ⟨"math_block", [], [' ', '\t'], []⟩ rfl (by decide),
   compiler_omits_empty.2.1 ⟨"math_block", [], ['\u00A0'], []⟩ rfl (by decide),
   compiler_omits_empty.2.2.1 ⟨"math_block", [], ['\u00A0', 'x', '\u3000'], []⟩ rfl
     (by decide),
   compiler_omits_empty.2.2.1 ⟨"math_block", [], ['x', ' '], []⟩ rfl (by decide),
   compiler_omits_empty.2.2.2.1 [],
   compiler_omits_empty.2.2.2.2 [] [⟨"text", ['a'], []⟩] [⟨"text", ['b'], []⟩]
     (by decide) (by decide)⟩

/-- C7: the compiler is deterministic and ignores the title — two ASTs
with the same blocks compile to structurally identical block sequences,
so no output block is derived from the title. -/
theorem compiler_ignores_title (a b : ASTNode) (h : a.blocks = b.blocks) :
    ast_to_notion_children a = ast_to_notion_children b := by
  simp [ast_to_notion_children, h]

/-- Witness for C7: two ASTs differing only in the title. -/
theorem compiler_ignores_title_witness :
    ast_to_notion_children ⟨"Title A".toList, [⟨"math_block", [], ['x'], []⟩]⟩
      = ast_to_notion_children ⟨"Title B".toList, [⟨"math_block", [], ['x'], []⟩]⟩ :=
  compiler_ignores_title ⟨"Title A".toList, [⟨"math_block", [], ['x'], []⟩]⟩
    ⟨"Title B".toList, [⟨"math_block", [], ['x'], []⟩]⟩ rfl

/-- The loop body at a shifted index ignores a fixed head cell. -/
theorem loopStep_cons (a : Inline) (l : List Inline) (i : Nat) :
    loopStep (a :: l) (i + 1) = a :: loopStep l i := by
  rcases h1 : l[i]? with _ | cur <;> rcases h2 : l[i + 1]? with _ | nxt <;>
    simp [loopStep, h1, h2]

/-- The loop body at index 0 rewrites the first two cells by the rules. -/
theorem loopStep_zero (x y : Inline) (rest : List Inline) :
    loopStep (x :: y :: rest) 0 = (applyRules x y).1 :: (applyRules x y).2 :: rest := by
  simp [loopStep]

theorem foldl_loopStep_shift : ∀ (is : List Nat) (l : List Inline) (a : Inline),
    (is.map (fun i => i + 1)).foldl loopStep (a :: l) = a :: is.foldl loopStep l := by
  intro is
  induction is with
  | nil => intro l a; rfl
  | cons i is ih =>
      intro l a
      simp only [List.map_cons, List.foldl_cons, loopStep_cons]
      exact ih (loopStep l i) a

/-- The index loop of `normalize_inlines_spacing` computes the left-to-right
pairwise recursion `normalizeGo`: iteration `i` writes cell `i` for the last
time, and iteration `i + 1` sees the updated cell `i + 1`. -/
theorem foldl_range_eq_go : ∀ (zs : List Inline),
    (List.range (zs.length - 1)).foldl loopStep zs = normalizeGo zs := by
  suffices H : ∀ (L : Nat) (zs : List Inline), zs.length ≤ L →
      (List.range (zs.length - 1)).foldl loopStep zs = normalizeGo zs from
    fun zs => H zs.length zs Nat.le.refl
  intro L
  induction L with
  | zero =>
      intro zs h
      have hz : zs = [] := List.length_eq_zero.mp (Nat.le_zero.mp h)
      subst hz
      simp [normalizeGo]
  | succ L ih =>
      intro zs h
      match zs with
      | [] => simp [normalizeGo]
      | [x] => simp [normalizeGo]
      | x :: y :: rest =>
          have hlen : (x :: y :: rest).length - 1 = rest.length + 1 := by simp
          rw [hlen, List.range_succ_eq_map]
          simp only [List.foldl_cons, Nat.succ_eq_add_one]
          rw [loopStep_zero, foldl_loopStep_shift]
          have h2 : ((applyRules x y).2 :: rest).length - 1 = rest.length := by simp
          rw [show List.range rest.length
              = List.range (((applyRules x y).2 :: rest).length - 1) by rw [h2]]
          rw [ih ((applyRules x y).2 :: rest) (by simp at h ⊢; omega)]
          simp [normalizeGo]

/-- `normalize_inlines_spacing` equals the pairwise recursion on every input. -/
theorem normalize_eq_normalizeGo (xs : List Inline) :
    normalize_inlines_spacing xs = normalizeGo xs := by
  match xs with
  | [] => simp [normalize_inlines_spacing, normalizeGo]
  | [x] => simp [normalize_inlines_spacing, normalizeGo]
  | x :: y :: rest =>
      rw [normalize_inlines_spacing, if_neg (by simp)]
      exact foldl_range_eq_go (x :: y :: rest)

theorem applyRules_fst_eq (x y : Inline) :
    (applyRules x y).1
      = (if rule1Fires x y then { x with text := x.text ++ [' '] } else x) := rfl

theorem applyRules_snd_eq (x y : Inline) :
    (applyRules x y).2
      = (if rule2Fires x y then { y with text := ' ' :: y.text } else y) := rfl

theorem applyRules_fst_of_true {x y : Inline} (h : rule1Fires x y = true) :
    (applyRules x y).1 = { x with text := x.text ++ [' '] } := by
  rw [applyRules_fst_eq, if_pos h]

theorem applyRules_fst_of_false {x y : Inline} (h : rule1Fires x y = false) :
    (applyRules x y).1 = x := by
  rw [applyRules_fst_eq, if_neg (by simp [h])]

theorem applyRules_snd_of_true {x y : Inline} (h : rule2Fires x y = true) :
    (applyRules x y).2 = { y with text := ' ' :: y.text } := by
  rw [applyRules_snd_eq, if_pos h]

theorem applyRules_snd_of_false {x y : Inline} (h : rule2Fires x y = false) :
    (applyRules x y).2 = y := by
  rw [applyRules_snd_eq, if_neg (by simp [h])]

theorem applyRules_fst_kind (x y : Inline) : (applyRules x y).1.kind = x.kind := by
  rw [applyRules_fst_eq]
  split <;> rfl

theorem applyRules_snd_kind (x y : Inline) : (applyRules x y).2.kind = y.kind := by
  rw [applyRules_snd_eq]
  split <;> rfl

theorem rule1Fires_elim {x y : Inline} (h : rule1Fires x y = true) :
    x.kind = "text" ∧ y.kind = "math" ∧ x.text ≠ [] ∧
    lastMem x.text [' '] = false ∧ lastMem x.text openers = false := by
  simp only [rule1Fires, Bool.and_eq_true, beq_iff_eq, Bool.not_eq_true',
    List.isEmpty_eq_false] at h
  exact ⟨h.1.1.1.1, h.1.1.1.2, h.1.1.2, h.1.2, h.2⟩

theorem rule2Fires_elim {x y : Inline} (h : rule2Fires x y = true) :
    x.kind = "math" ∧ y.kind = "text" ∧ y.text ≠ [] ∧
    headMem y.text [' '] = false ∧ headMem y.text punctuation = false := by
  simp only [rule2Fires, Bool.and_eq_true, beq_iff_eq, Bool.not_eq_true',
    List.isEmpty_eq_false] at h
  exact ⟨h.1.1.1.1, h.1.1.1.2, h.1.1.2, h.1.2, h.2⟩

theorem rule1Fires_false_of_kind {x y : Inline} (h : x.kind = "math") :
    rule1Fires x y = false := by
  simp [rule1Fires, h]

theorem rule2Fires_false_of_kind {x y : Inline} (h : y.kind = "math") :
    rule2Fires x y = false := by
  simp [rule2Fires, h]

theorem rule1Fires_false_elim {x y : Inline} (h : rule1Fires x y = false)
    (hx : x.kind = "text") (hy : y.kind = "math") (hne : x.text ≠ []) :
    lastMem x.text [' '] = true ∨ lastMem x.text openers = true := by
  cases hA : lastMem x.text [' ']
  · cases hB : lastMem x.text openers
    · exfalso
      have ht : rule1Fires x y = true := by
        simp [rule1Fires, hx, hy, hne, hA, hB]
      rw [h] at ht
      exact Bool.false_ne_true ht
    · exact Or.inr rfl
  · exact Or.inl rfl

theorem rule2Fires_false_elim {x y : Inline} (h : rule2Fires x y = false)
    (hx : x.kind = "math") (hy : y.kind = "text") (hne : y.text ≠ []) :
    headMem y.text [' '] = true ∨ headMem y.text punctuation = true := by
  cases hA : headMem y.text [' ']
  · cases hB : headMem y.text punctuation
    · exfalso
      have ht : rule2Fires x y = true := by
        simp [rule2Fires, hx, hy, hne, hA, hB]
      rw [h] at ht
      exact Bool.false_ne_true ht
    · exact Or.inr rfl
  · exact Or.inl rfl

theorem lastMem_append_space (t : List Char) : lastMem (t ++ [' ']) [' '] = true := by
  simp [lastMem, List.getLast?_concat]

theorem headMem_cons (c : Char) (t : List Char) (cs : List Char) :
    headMem (c :: t) cs = cs.contains c := by
  simp [headMem]

theorem headMem_append {t : List Char} (u : List Char) (hne : t ≠ [])
    (cs : List Char) : headMem (t ++ u) cs = headMem t cs := by
  rcases t with _ | ⟨c, t⟩
  · exact absurd rfl hne
  · simp [headMem]

/-- Shape of the head cell of `normalizeGo (b :: rest)`: the first cell is
returned unchanged, or (only when it is a non-empty text inline) with one
space appended by the first rule. -/
def headExt (b w : Inline) : Prop :=
  w = b ∨ (b.kind = "text" ∧ b.text ≠ [] ∧ w = { b with text := b.text ++ [' '] })

theorem normalizeGo_head (b : Inline) (rest : List Inline) :
    ∃ w T, normalizeGo (b :: rest) = w :: T ∧ headExt b w := by
  match rest with
  | [] => exact ⟨b, [], by simp [normalizeGo], Or.inl rfl⟩
  | c :: rest2 =>
      refine ⟨(applyRules b c).1, normalizeGo ((applyRules b c).2 :: rest2),
        by simp [normalizeGo], ?_⟩
      cases hq : rule1Fires b c
      · exact Or.inl (applyRules_fst_of_false hq)
      · rcases rule1Fires_elim hq with ⟨h1, _, h3, _, _⟩
        exact Or.inr ⟨h1, h3, applyRules_fst_of_true hq⟩

/-- Stability of a rewritten pair: once `applyRules` has processed the
pair `(x, y)`, its left output together with any head-extension of its
right output forms a pair on which neither rule fires again. -/
theorem applyRules_stable (x y w : Inline) (hext : headExt (applyRules x y).2 w) :
    applyRules (applyRules x y).1 w = ((applyRules x y).1, w) := by
  have h1 : rule1Fires (applyRules x y).1 w = false := by
    cases hq : rule1Fires (applyRules x y).1 w
    · rfl
    · exfalso
      rcases rule1Fires_elim hq with ⟨hk1, hk2, hne, hsp, _⟩
      have hw : w = (applyRules x y).2 := by
        rcases hext with hw | ⟨hyk, _, hw⟩
        · exact hw
        · exfalso
          rw [hw] at hk2
          simp only at hk2
          rw [hyk] at hk2
          exact absurd hk2 (by decide)
      rw [hw, applyRules_snd_kind] at hk2
      have hy' : (applyRules x y).2 = y :=
        applyRules_snd_of_false (rule2Fires_false_of_kind hk2)
      rw [applyRules_fst_kind] at hk1
      rw [hw, hy'] at hext
      cases hr : rule1Fires x y
      · have hx' : (applyRules x y).1 = x := applyRules_fst_of_false hr
        rw [hx'] at hne hsp
        rcases rule1Fires_false_elim hr hk1 hk2 hne with hc | hc
        · rw [hsp] at hc
          exact Bool.false_ne_true hc
        · rcases rule1Fires_elim hq with ⟨_, _, _, _, hop⟩
          rw [hx'] at hop
          rw [hop] at hc
          exact Bool.false_ne_true hc
      · have hx' : (applyRules x y).1 = { x with text := x.text ++ [' '] } :=
          applyRules_fst_of_true hr
        rw [hx'] at hsp
        simp only at hsp
        rw [lastMem_append_space] at hsp
        exact Bool.noConfusion hsp
  have h2 : rule2Fires (applyRules x y).1 w = false := by
    cases hq : rule2Fires (applyRules x y).1 w
    · rfl
    · exfalso
      rcases rule2Fires_elim hq with ⟨hk1, hk2, hne, hsp, hpc⟩
      rw [applyRules_fst_kind] at hk1
      have hyk : y.kind = "text" := by
        rcases hext with hw | ⟨hyk, _, _⟩
        · rw [hw, applyRules_snd_kind] at hk2
          exact hk2
        · rw [← applyRules_snd_kind x y]
          exact hyk
      cases hr : rule2Fires x y
      · have hy' : (applyRules x y).2 = y := applyRules_snd_of_false hr
        rcases hext with hw | ⟨_, hyne, hw⟩
        · rw [hy'] at hw
          rw [hw] at hne hsp hpc
          rcases rule2Fires_false_elim hr hk1 hyk hne with hc | hc
          · rw [hsp] at hc
            exact Bool.false_ne_true hc
          · rw [hpc] at hc
            exact Bool.false_ne_true hc
        · rw [hy'] at hw hyne
          rw [hw] at hsp hpc
          simp only at hsp hpc
          rw [headMem_append [' '] hyne] at hsp hpc
          rcases rule2Fires_false_elim hr hk1 hyk hyne with hc | hc
          · rw [hsp] at hc
            exact Bool.false_ne_true hc
          · rw [hpc] at hc
            exact Bool.false_ne_true hc
      · have hy' : (applyRules x y).2 = { y with text := ' ' :: y.text } :=
          applyRules_snd_of_true hr
        rcases hext with hw | ⟨_, hyne, hw⟩
        · rw [hy'] at hw
          rw [hw] at hsp
          simp only at hsp
          rw [headMem_cons] at hsp
          exact absurd hsp (by decide)
        · rw [hy'] at hw
          rw [hw] at hsp
          simp only at hsp
          rw [headMem_append [' '] (by simp), headMem_cons] at hsp
          exact absurd hsp (by decide)
  have e1 : (applyRules (applyRules x y).1 w).1 = (applyRules x y).1 := by
    rw [applyRules_fst_eq, if_neg (by simp [h1])]
  have e2 : (applyRules (applyRules x y).1 w).2 = w := by
    rw [applyRules_snd_eq, if_neg (by simp [h2])]
  exact Prod.ext e1 e2

/-- The pairwise recursion is idempotent. -/
theorem normalizeGo_idem : ∀ (l : List Inline),
    normalizeGo (normalizeGo l) = normalizeGo l := by
  suffices H : ∀ (L : Nat) (l : List Inline), l.length ≤ L →
      normalizeGo (normalizeGo l) = normalizeGo l from
    fun l => H l.length l Nat.le.refl
  intro L
  induction L with
  | zero =>
      intro l h
      have hz : l = [] := List.length_eq_zero.mp (Nat.le_zero.mp h)
      subst hz
      simp [normalizeGo]
  | succ L ih =>
      intro l h
      match l with
      | [] => simp [normalizeGo]
      | [x] => simp [normalizeGo]
      | x :: y :: rest =>
          obtain ⟨w, T, hG, hExt⟩ := normalizeGo_head (applyRules x y).2 rest
          have hgo : normalizeGo (x :: y :: rest)
              = (applyRules x y).1 :: normalizeGo ((applyRules x y).2 :: rest) := by
            simp [normalizeGo]
          rw [hgo, hG]
          have hstep : normalizeGo ((applyRules x y).1 :: w :: T)
              = (applyRules (applyRules x y).1 w).1
                  :: normalizeGo ((applyRules (applyRules x y).1 w).2 :: T) := by
            simp [normalizeGo]
          rw [hstep, applyRules_stable x y w hExt]
          have hT : normalizeGo (w :: T) = w :: T := by
            rw [← hG]
            exact ih ((applyRules x y).2 :: rest) (by simp at h ⊢; omega)
          rw [hT]

/-- C8: the inline normalizer is idempotent — normalizing an already
normalized sequence returns it unchanged. -/
theorem normalizer_idempotent (xs : List Inline) :
    normalize_inlines_spacing (normalize_inlines_spacing xs)
      = normalize_inlines_spacing xs := by
  rw [normalize_eq_normalizeGo, normalize_eq_normalizeGo, normalizeGo_idem]

/-- Relation between an input text and its normalized form: at most one
leading and at most one trailing space are added. -/
def textExtended (t u : List Char) : Prop :=
  u = t ∨ u = t ++ [' '] ∨ u = ' ' :: t ∨ u = ' ' :: (t ++ [' '])

/-- Per-cell frame relation for the normalizer: kind and latex are
untouched and the text is extended by at most surrounding spaces. -/
def inlineExtended (a b : Inline) : Prop :=
  b.kind = a.kind ∧ b.latex = a.latex ∧ textExtended a.text b.text

theorem normalizeGo_extends : ∀ (l : List Inline),
    List.Forall₂ inlineExtended l (normalizeGo l) := by
  suffices H : ∀ (L : Nat) (l : List Inline), l.length ≤ L →
      List.Forall₂ inlineExtended l (normalizeGo l) from
    fun l => H l.length l Nat.le.refl
  intro L
  induction L with
  | zero =>
      intro l h
      have hz : l = [] := List.length_eq_zero.mp (Nat.le_zero.mp h)
      subst hz
      simp [normalizeGo]
  | succ L ih =>
      intro l h
      match l with
      | [] => simp [normalizeGo]
      | [x] =>
          simp only [normalizeGo]
          exact List.Forall₂.cons ⟨rfl, rfl, Or.inl rfl⟩ List.Forall₂.nil
      | x :: y :: rest =>
          have hgo : normalizeGo (x :: y :: rest)
              = (applyRules x y).1 :: normalizeGo ((applyRules x y).2 :: rest) := by
            simp [normalizeGo]
          rw [hgo]
          obtain ⟨w, T, hG, hExt⟩ := normalizeGo_head (applyRules x y).2 rest
          have IH := ih ((applyRules x y).2 :: rest) (by simp at h ⊢; omega)
          rw [hG] at IH ⊢
          have hT : List.Forall₂ inlineExtended rest T := (List.forall₂_cons.mp IH).2
          refine List.Forall₂.cons ?_ (List.Forall₂.cons ?_ hT)
          · cases hq : rule1Fires x y
            · rw [applyRules_fst_of_false hq]
              exact ⟨rfl, rfl, Or.inl rfl⟩
            · rw [applyRules_fst_of_true hq]
              exact ⟨rfl, rfl, Or.inr (Or.inl rfl)⟩
          · cases hr : rule2Fires x y
            · have hy' : (applyRules x y).2 = y := applyRules_snd_of_false hr
              rw [hy'] at hExt
              rcases hExt with hw | ⟨_, _, hw⟩
              · rw [hw]
                exact ⟨rfl, rfl, Or.inl rfl⟩
              · rw [hw]
                exact ⟨rfl, rfl, Or.inr (Or.inl rfl)⟩
            · have hy' : (applyRules x y).2 = { y with text := ' ' :: y.text } :=
                applyRules_snd_of_true hr
              rw [hy'] at hExt
              rcases hExt with hw | ⟨_, _, hw⟩
              · rw [hw]
                exact ⟨rfl, rfl, Or.inr (Or.inr (Or.inl rfl))⟩
              · rw [hw]
                refine ⟨rfl, rfl, Or.inr (Or.inr (Or.inr ?_))⟩
                simp

theorem forall₂_map_eq {α β : Type} (f : α → β) :
    ∀ {l1 l2 : List α}, List.Forall₂ (fun a b => f b = f a) l1 l2 →
      l2.map f = l1.map f := by
  intro l1 l2 h
  induction h with
  | nil => rfl
  | cons hab _ ih => simp [ih, hab]

/-- C9: the normalizer returns a sequence of the same length, with the
same kinds in the same order and every latex field unchanged; each text
field is changed at most by adding a leading and/or trailing space; and
sequences of length below two are returned unchanged. -/
theorem normalizer_frame (xs : List Inline) :
    (normalize_inlines_spacing xs).length = xs.length ∧
    (normalize_inlines_spacing xs).map Inline.kind = xs.map Inline.kind ∧
    (normalize_inlines_spacing xs).map Inline.latex = xs.map Inline.latex ∧
    List.Forall₂ (fun a b => textExtended a.text b.text) xs
      (normalize_inlines_spacing xs) ∧
    (xs.length < 2 → normalize_inlines_spacing xs = xs) := by
  have h : List.Forall₂ inlineExtended xs (normalize_inlines_spacing xs) := by
    rw [normalize_eq_normalizeGo]
    exact normalizeGo_extends xs
  refine ⟨h.length_eq.symm, ?_, ?_, ?_, ?_⟩
  · exact forall₂_map_eq Inline.kind (h.imp (fun _ _ hab => hab.1))
  · exact forall₂_map_eq Inline.latex (h.imp (fun _ _ hab => hab.2.1))
  · exact h.imp (fun _ _ hab => hab.2.2)
  · intro hlt
    simp [normalize_inlines_spacing, hlt]

/-- Witness for C9: a singleton sequence is returned unchanged. -/
theorem normalizer_frame_witness :
    normalize_inlines_spacing [⟨"text", ['a'], []⟩] = [⟨"text", ['a'], []⟩] :=
  (normalizer_frame [⟨"text", ['a'], []⟩]).2.2.2.2 (by decide)

/-- First spacing rule exactly as the claim words it — no non-emptiness
condition on the text — for a refinement comparison with the code's rule
`rule1Fires` (which additionally requires `text` to be truthy). -/
def rule1ClaimFires (cur nxt : Inline) : Bool :=
  cur.kind == "text" && nxt.kind == "math" &&
    !lastMem cur.text [' '] && !lastMem cur.text openers

/-- Second spacing rule exactly as the claim words it — no non-emptiness
condition on the text. -/
def rule2ClaimFires (cur nxt : Inline) : Bool :=
  cur.kind == "math" && nxt.kind == "text" &&
    !headMem nxt.text [' '] && !headMem nxt.text punctuation

def applyRulesClaimed (cur nxt : Inline) : Inline × Inline :=
  (if rule1ClaimFires cur nxt then { cur with text := cur.text ++ [' '] } else cur,
   if rule2ClaimFires cur nxt then { nxt with text := ' ' :: nxt.text } else nxt)

def loopStepClaimed (res : List Inline) (i : Nat) : List Inline :=
  match res[i]?, res[i + 1]? with
  | some cur, some nxt =>
      ((res.set i (applyRulesClaimed cur nxt).1).set (i + 1)
        (applyRulesClaimed cur nxt).2)
  | _, _ => res

/-- The normalizer as the claim describes it: both rules applied once per
adjacent pair, left to right, with no non-emptiness condition. -/
def normalizeClaimed (inlines : List Inline) : List Inline :=
  if inlines.length < 2 then inlines
  else (List.range (inlines.length - 1)).foldl loopStepClaimed inlines

/-- C2 counterexample: on `[text(""), math("x")]` the empty text does not
end in a space or an opening bracket, so the rules as the claim words them
append a space; the code's guard `if text` exempts empty texts, so the
code returns the sequence unchanged. -/
theorem normalizer_rules_counterexample :
    normalizeClaimed [⟨"text", [], []⟩, ⟨"math", [], ['x']⟩]
        ≠ normalize_inlines_spacing [⟨"text", [], []⟩, ⟨"math", [], ['x']⟩] ∧
    normalize_inlines_spacing [⟨"text", [], []⟩, ⟨"math", [], ['x']⟩]
        = [⟨"text", [], []⟩, ⟨"math", [], ['x']⟩] ∧
    normalizeClaimed [⟨"text", [], []⟩, ⟨"math", [], ['x']⟩]
        = [⟨"text", [' '], []⟩, ⟨"math", [], ['x']⟩] := by
  refine ⟨?_, ?_, ?_⟩ <;> decide

/-- C2 amended: the normalizer applies the two rules once per adjacent
pair, left to right, where each rule additionally requires the affected
text to be non-empty: a non-empty text before a math inline gets a space
appended unless it ends in a space or an opening bracket, and a non-empty
text after a math inline gets a space prepended unless it starts with a
space or a punctuation character; the claim's three examples hold. -/
theorem normalizer_rules_amended :
    (∀ xs, normalize_inlines_spacing xs = normalizeGo xs) ∧
    (∀ t m : Inline, t.kind = "text" → m.kind = "math" →
        normalize_inlines_spacing [t, m]
          = [if t.text ≠ [] ∧ lastMem t.text [' '] = false ∧
                lastMem t.text openers = false
             then { t with text := t.text ++ [' '] } else t, m]) ∧
    (∀ m t : Inline, m.kind = "math" → t.kind = "text" →
        normalize_inlines_spacing [m, t]
          = [m, if t.text ≠ [] ∧ headMem t.text [' '] = false ∧
                   headMem t.text punctuation = false
                then { t with text := ' ' :: t.text } else t]) ∧
    normalize_inlines_spacing [⟨"text", ['a'], []⟩, ⟨"math", [], ['x']⟩]
      = [⟨"text", ['a', ' '], []⟩, ⟨"math", [], ['x']⟩] ∧
    normalize_inlines_spacing [⟨"math", [], ['x']⟩, ⟨"text", ['!'], []⟩]
      = [⟨"math", [], ['x']⟩, ⟨"text", ['!'], []⟩] ∧
    normalize_inlines_spacing [⟨"math", [], ['x']⟩, ⟨"text", "word".toList, []⟩]
      = [⟨"math", [], ['x']⟩, ⟨"text", " word".toList, []⟩] := by
  refine ⟨normalize_eq_normalizeGo, ?_, ?_, by decide, by decide, by decide⟩
  · intro t m ht hm
    rw [normalize_eq_normalizeGo]
    have h2 : (applyRules t m).2 = m :=
      applyRules_snd_of_false (by simp [rule2Fires, ht])
    have hgo : normalizeGo [t, m]
        = (applyRules t m).1 :: normalizeGo [(applyRules t m).2] := by
      simp [normalizeGo]
    rw [hgo, h2]
    have hm1 : normalizeGo [m] = [m] := by simp [normalizeGo]
    rw [hm1]
    by_cases hc : t.text ≠ [] ∧ lastMem t.text [' '] = false ∧
        lastMem t.text openers = false
    · rw [if_pos hc]
      obtain ⟨hne, hsp, hop⟩ := hc
      rw [applyRules_fst_of_true (by simp [rule1Fires, ht, hm, hne, hsp, hop])]
    · rw [if_neg hc]
      have hf : rule1Fires t m = false := by
        cases hq : rule1Fires t m
        · rfl
        · rcases rule1Fires_elim hq with ⟨_, _, h3, h4, h5⟩
          exact absurd ⟨h3, h4, h5⟩ hc
      rw [applyRules_fst_of_false hf]
  · intro m t hm ht
    rw [normalize_eq_normalizeGo]
    have h1 : (applyRules m t).1 = m :=
      applyRules_fst_of_false (by simp [rule1Fires, hm])
    have hgo : normalizeGo [m, t]
        = (applyRules m t).1 :: normalizeGo [(applyRules m t).2] := by
      simp [normalizeGo]
    rw [hgo, h1]
    by_cases hc : t.text ≠ [] ∧ headMem t.text [' '] = false ∧
        headMem t.text punctuation = false
    · rw [if_pos hc]
      obtain ⟨hne, hsp, hpc⟩ := hc
      rw [applyRules_snd_of_true (by simp [rule2Fires, ht, hm, hne, hsp, hpc])]
      simp [normalizeGo]
    · rw [if_neg hc]
      have hf : rule2Fires m t = false := by
        cases hq : rule2Fires m t
        · rfl
        · rcases rule2Fires_elim hq with ⟨_, _, h3, h4, h5⟩
          exact absurd ⟨h3, h4, h5⟩ hc
      rw [applyRules_snd_of_false hf]
      simp [normalizeGo]

/-- Witness for the amended C2 at a concrete pair. -/
theorem normalizer_rules_amended_witness :
    normalize_inlines_spacing [⟨"text", ['b'], []⟩, ⟨"math", [], ['y']⟩]
      = [⟨"text", ['b', ' '], []⟩, ⟨"math", [], ['y']⟩] :=
  normalizer_rules_amended.2.1 ⟨"text", ['b'], []⟩ ⟨"math", [], ['y']⟩ rfl rfl

end LectureNotesAI
